import Mathlib

/-!
Verification model of the grav-lsm schema-evolution engine.

The definitions below are a shallow embedding of
`internal/database/migration/migration.go` and
`internal/database/seed/seeder.go`.  The external SQL database is modelled
as an explicit state: the `migrations` ledger table (existence flag plus its
rows) together with an abstract schema value of type `σ`.  Executing a SQL
text against the schema is modelled by a parameter
`exec : String → σ → Option σ`; `none` models a failed `tx.Exec`, in which
case the enclosing transaction is rolled back and the database state is
unchanged.  `tx.Begin`, `tx.Commit` and `tx.Rollback` are modelled as always
succeeding (their failure branches in the Go code only propagate an error).
Every operation returns the resulting database state, the list of observable
statement executions (the trace), and the `error` return value of the Go
function (`none` = Go `nil`).
-/

namespace GravLsm

instance exceptDecEq {ε α : Type} [DecidableEq ε] [DecidableEq α] :
    DecidableEq (Except ε α) := fun x y =>
  match x, y with
  | .ok a, .ok b =>
    if h : a = b then .isTrue (by rw [h]) else .isFalse (fun hc => by cases hc; exact h rfl)
  | .error a, .error b =>
    if h : a = b then .isTrue (by rw [h]) else .isFalse (fun hc => by cases hc; exact h rfl)
  | .ok _, .error _ => .isFalse (fun hc => by cases hc)
  | .error _, .ok _ => .isFalse (fun hc => by cases hc)

/-- Observable database actions performed by the engine. -/
inductive Event where
  | execUp (version : Int)
  | insertLedger (version : Int)
  | execDown (version : Int)
  | deleteLedger (version : Int)
  | execStmt (name sql : String)
  deriving DecidableEq

/-- Source `migration.go`: `type Migration struct` (the `Timestamp` field is never
read by the engine and is omitted). `Version` is an `int64`, modelled as `Int`. -/
structure Migration where
  version : Int
  name : String
  upSQL : String
  downSQL : String
  deriving DecidableEq

/-- The external database: whether the `migrations` ledger table exists, its
rows `(version, name)` in insertion order, and the abstract schema. -/
structure DBState (σ : Type) where
  tableExists : Bool
  ledger : List (Int × String)
  schema : σ
  deriving DecidableEq

/-- Result of running an engine operation: final database state, trace of
statement executions, and the Go `error` return (`none` = `nil`). -/
structure StepResult (σ : Type) where
  state : DBState σ
  events : List Event
  err : Option String
  deriving DecidableEq

/-- The versions recorded in the ledger table. -/
def ledgerVersions {σ} (s : DBState σ) : List Int := s.ledger.map Prod.fst

/-- Source `migration.go`: `func contains(slice []int64, item int64) bool`. -/
def contains : List Int → Int → Bool
  | [], _ => false
  | v :: rest, item => if v = item then true else contains rest item

/-- Source `migration.go`: `func (m *Migrator) findMigration(version int64) *Migration`
(first definition in load order whose version matches). -/
def findMigration : List Migration → Int → Option Migration
  | [], _ => none
  | mig :: rest, version =>
    if mig.version = version then some mig else findMigration rest version

/-- Insertion into a descending-sorted list (used to model SQL
`ORDER BY version DESC`). -/
def insertDesc (v : Int) : List Int → List Int
  | [] => [v]
  | x :: xs => if x ≤ v then v :: x :: xs else x :: insertDesc v xs

/-- Sort a list of versions in descending order, modelling the
`SELECT version FROM migrations ORDER BY version DESC` result set. -/
def sortDesc : List Int → List Int
  | [] => []
  | x :: xs => insertDesc x (sortDesc xs)

/-- Source `migration.go`: `createMigrationsTable` issues
`CREATE TABLE IF NOT EXISTS migrations (...)`; it only ever creates the
ledger table and succeeds whether or not the table already exists. -/
def createMigrationsTable {σ} (s : DBState σ) : DBState σ := { s with tableExists := true }

/-- Source `migration.go`: `getAppliedMigrations` queries
`SELECT version FROM migrations ORDER BY version DESC`; the query fails when
the ledger table does not exist. -/
def getAppliedMigrations {σ} (s : DBState σ) : Except String (List Int) :=
  if s.tableExists then .ok (sortDesc (ledgerVersions s))
  else .error "error querying migrations"

variable {σ : Type}

/-- Source `migration.go`: `runMigration` — one transaction: execute `UpSQL`, insert
the ledger row (`version` is the primary key, so inserting a duplicate
version fails), commit.  On any failure the transaction is rolled back and
the state is unchanged. -/
def runMigration (exec : String → σ → Option σ) (migration : Migration)
    (s : DBState σ) : StepResult σ :=
  match exec migration.upSQL s.schema with
  | none => ⟨s, [Event.execUp migration.version], some "error applying migration"⟩
  | some sch =>
    if contains (ledgerVersions s) migration.version then
      ⟨s, [Event.execUp migration.version, Event.insertLedger migration.version],
        some "error recording migration"⟩
    else
      ⟨{ s with schema := sch, ledger := s.ledger ++ [(migration.version, migration.name)] },
        [Event.execUp migration.version, Event.insertLedger migration.version], none⟩

/-- The `for _, migration := range m.migrations` loop of `Migrate`:
`appliedMigrations` is computed once before the loop and is not refreshed. -/
def migrateLoop (exec : String → σ → Option σ) (applied : List Int) :
    List Migration → DBState σ → StepResult σ
  | [], s => ⟨s, [], none⟩
  | mig :: rest, s =>
    if contains applied mig.version then migrateLoop exec applied rest s
    else
      let r := runMigration exec mig s
      match r.err with
      | some e => ⟨r.state, r.events, some ("failed to run migration " ++ mig.name ++ ": " ++ e)⟩
      | none =>
        let r2 := migrateLoop exec applied rest r.state
        ⟨r2.state, r.events ++ r2.events, r2.err⟩

/-- Source `migration.go`: `func (m *Migrator) Migrate() error`. -/
def migrate (exec : String → σ → Option σ) (migrations : List Migration)
    (s : DBState σ) : StepResult σ :=
  let s1 := createMigrationsTable s
  match getAppliedMigrations s1 with
  | .error e => ⟨s1, [], some ("failed to get applied migrations: " ++ e)⟩
  | .ok applied => migrateLoop exec applied migrations s1

/-- Source `migration.go`: `rollbackMigration` — one transaction: execute `DownSQL`,
`DELETE FROM migrations WHERE version = $1`, commit.  On failure the
transaction is rolled back and the state is unchanged. -/
def rollbackMigration (exec : String → σ → Option σ) (migration : Migration)
    (s : DBState σ) : StepResult σ :=
  match exec migration.downSQL s.schema with
  | none => ⟨s, [Event.execDown migration.version], some "error rolling back migration"⟩
  | some sch =>
    ⟨{ s with schema := sch, ledger := s.ledger.filter (fun row => row.1 != migration.version) },
      [Event.execDown migration.version, Event.deleteLedger migration.version], none⟩

/-- The `for i := 0; i < steps && i < len(appliedMigrations); i++` loop of
`Rollback`, with the remaining step budget as fuel. -/
def rollbackLoop (exec : String → σ → Option σ) (migrations : List Migration) :
    List Int → Nat → DBState σ → StepResult σ
  | _, 0, s => ⟨s, [], none⟩
  | [], _, s => ⟨s, [], none⟩
  | v :: rest, fuel + 1, s =>
    match findMigration migrations v with
    | none => ⟨s, [], some ("migration with version " ++ toString v ++ " not found")⟩
    | some mig =>
      let r := rollbackMigration exec mig s
      match r.err with
      | some e => ⟨r.state, r.events,
          some ("failed to rollback migration " ++ mig.name ++ ": " ++ e)⟩
      | none =>
        let r2 := rollbackLoop exec migrations rest fuel r.state
        ⟨r2.state, r.events ++ r2.events, r2.err⟩

/-- Source `migration.go`: `func (m *Migrator) Rollback(steps int) error`.  Note
that, unlike `Migrate`, it never calls `createMigrationsTable`. -/
def rollback (exec : String → σ → Option σ) (migrations : List Migration)
    (steps : Int) (s : DBState σ) : StepResult σ :=
  if steps ≤ 0 then ⟨s, [], none⟩
  else
    match getAppliedMigrations s with
    | .error e => ⟨s, [], some ("failed to get applied migrations: " ++ e)⟩
    | .ok applied => rollbackLoop exec migrations applied steps.toNat s

/-- Source `seeder.go`: `type Seed struct`. -/
structure Seed where
  name : String
  sql : String
  deriving DecidableEq

/-- Source `seeder.go`: `executeSeed` — one transaction: a single `tx.Exec(seed.SQL)`
of the whole body, then commit.  In the Go code the failure branch reads

    if _, err := tx.Exec(seed.SQL); err != nil {
        err := tx.Rollback()
        if err != nil { return err }
        ...
        return err
    }

the inner `err := tx.Rollback()` shadows the `Exec` error, so when the
rollback succeeds (the modelled case) the function returns `nil` even though
the statement failed. -/
def executeSeed (exec : String → σ → Option σ) (sd : Seed) (s : DBState σ) : StepResult σ :=
  match exec sd.sql s.schema with
  | none => ⟨s, [Event.execStmt sd.name sd.sql], none⟩
  | some sch => ⟨{ s with schema := sch }, [Event.execStmt sd.name sd.sql], none⟩

/-- Source `seeder.go`: `func (s *Seeder) Seed() error` — run every loaded seed in
order, stopping at the first non-nil `executeSeed` result. -/
def runSeeds (exec : String → σ → Option σ) : List Seed → DBState σ → StepResult σ
  | [], s => ⟨s, [], none⟩
  | sd :: rest, s =>
    let r := executeSeed exec sd s
    match r.err with
    | some e => ⟨r.state, r.events, some e⟩
    | none =>
      let r2 := runSeeds exec rest r.state
      ⟨r2.state, r.events ++ r2.events, r2.err⟩

/-- Go `filepath.Ext`: the suffix beginning at the final dot of the file
name (the names handled here contain no path separator); `""` if there is no
dot. -/
def fileExt (name : String) : String :=
  let l := name.toList
  if l.contains '.' then
    String.mk ('.' :: (l.reverse.takeWhile (fun c => c ≠ '.')).reverse)
  else ""

/-- If `sep` is a prefix of `s`, the remainder of `s` after `sep`. -/
def stripPrefixChars : List Char → List Char → Option (List Char)
  | [], s => some s
  | _ :: _, [] => none
  | c :: cs, d :: ds => if c = d then stripPrefixChars cs ds else none

/-- Go `strings.Split` (non-empty separator): fuel-indexed worker scanning
left to right, consuming non-overlapping occurrences of `sep`.  Each step
consumes at least one character, so `fuel = s.length` is always enough. -/
def goSplitAux (sep : List Char) : Nat → List Char → List (List Char)
  | _, [] => [[]]
  | 0, s => [s]
  | fuel + 1, c :: rest =>
    match stripPrefixChars sep (c :: rest) with
    | some rem => [] :: goSplitAux sep fuel rem
    | none =>
      match goSplitAux sep fuel rest with
      | [] => [[c]]
      | p :: ps => (c :: p) :: ps

/-- Go `strings.Split(s, sep)` for a non-empty `sep`, on character lists. -/
def goSplit (sep s : List Char) : List (List Char) := goSplitAux sep s.length s

/-- Number of non-overlapping occurrences of `sep` in `s`, scanning left to
right (fuel-indexed worker). -/
def countOccAux (sep : List Char) : Nat → List Char → Nat
  | _, [] => 0
  | 0, _ => 0
  | fuel + 1, c :: rest =>
    match stripPrefixChars sep (c :: rest) with
    | some rem => countOccAux sep fuel rem + 1
    | none => countOccAux sep fuel rest

/-- Number of non-overlapping occurrences of `sep` in `s`. -/
def countOcc (sep s : List Char) : Nat := countOccAux sep s.length s

/-- Interleave `sep` between the parts (inverse of `goSplit`). -/
def joinSep (sep : List Char) : List (List Char) → List Char
  | [] => []
  | [p] => p
  | p :: ps => p ++ (sep ++ joinSep sep ps)

/-- Go `unicode.IsSpace` restricted to the code points that occur in SQL
source text (ASCII whitespace plus NEL and NBSP). -/
def isSpaceGo (c : Char) : Bool :=
  c = ' ' ∨ c = '\t' ∨ c = '\n' ∨ c = (Char.ofNat 11) ∨ c = (Char.ofNat 12) ∨
    c = (Char.ofNat 13) ∨ c = (Char.ofNat 133) ∨ c = (Char.ofNat 160)

/-- Go `strings.TrimSpace` on character lists. -/
def trimSpace (l : List Char) : List Char :=
  (((l.dropWhile isSpaceGo).reverse).dropWhile isSpaceGo).reverse

/-- The `-- Down` delimiter token of migration files. -/
def downToken : List Char := "-- Down".toList

/-- Source `migration.go` `parseMigrationFile`, lines 193–199: split the file
content on `"-- Down"`; exactly two parts are required; each part is trimmed
of surrounding whitespace. -/
def parseMigrationContent (content : String) : Except String (String × String) :=
  match goSplit downToken content.toList with
  | [up, rest] => .ok (String.mk (trimSpace up), String.mk (trimSpace rest))
  | _ => .error "invalid migration file format"

/-- Decimal value of a digit list; `none` on any non-digit. -/
def digitsVal (l : List Char) : Option Nat :=
  l.foldl
    (fun acc c =>
      match acc with
      | none => none
      | some n => if c.isDigit then some (n * 10 + (c.toNat - '0'.toNat)) else none)
    (some 0)

/-- Go `strconv.ParseInt(s, 10, 64)`: optional sign, non-empty digits,
value within the `int64` range (any failure, including overflow, makes the
Go caller return an error). -/
def parseInt64 (l : List Char) : Except String Int :=
  let sd : Bool × List Char :=
    match l with
    | '+' :: rest => (false, rest)
    | '-' :: rest => (true, rest)
    | _ => (false, l)
  match sd.2 with
  | [] => .error "invalid migration version"
  | _ =>
    match digitsVal sd.2 with
    | none => .error "invalid migration version"
    | some n =>
      let v : Int := if sd.1 then -(n : Int) else (n : Int)
      if v < -(2 ^ 63) ∨ 2 ^ 63 - 1 < v then .error "invalid migration version"
      else .ok v

/-- Source `migration.go`: `parseVersionFromFilename` — split the file name on
`"_"`; at least two parts are required; the first is parsed as an `int64`. -/
def parseVersionFromFilename (filename : String) : Except String Int :=
  match goSplit ['_'] filename.toList with
  | p1 :: _ :: _ => parseInt64 p1
  | _ => .error "invalid migration filename format"

/-- A directory entry handed to the migration loader: file name and content
(reading the file is done by the caller of the model). -/
structure MigFile where
  name : String
  content : String
  deriving DecidableEq

/-- Source `migration.go`: `parseMigrationFile` (content already read). -/
def parseMigrationFile (f : MigFile) : Except String Migration :=
  match parseMigrationContent f.content with
  | .error e => .error e
  | .ok (up, downPart) =>
    match parseVersionFromFilename f.name with
    | .error e => .error ("error parsing version from filename: " ++ e)
    | .ok v => .ok { version := v, name := f.name, upSQL := up, downSQL := downPart }

/-- The file loop of `LoadMigrations`: only `.sql` entries are parsed; the
first parse failure aborts the whole load. -/
def loadMigrationsAux : List MigFile → Except String (List Migration)
  | [] => .ok []
  | f :: fs =>
    if fileExt f.name = ".sql" then
      match parseMigrationFile f with
      | .error e => .error ("failed to parse migration file " ++ f.name ++ ": " ++ e)
      | .ok m =>
        match loadMigrationsAux fs with
        | .error e => .error e
        | .ok ms => .ok (m :: ms)
    else loadMigrationsAux fs

/-- Insertion into an ascending-by-version list. -/
def insertAsc (m : Migration) : List Migration → List Migration
  | [] => [m]
  | x :: xs => if m.version < x.version then m :: x :: xs else x :: insertAsc m xs

/-- The `sort.Slice` call of `LoadMigrations` (ascending by version). -/
def sortByVersion : List Migration → List Migration
  | [] => []
  | m :: ms => insertAsc m (sortByVersion ms)

/-- Source `migration.go`: `func (m *Migrator) LoadMigrations(dir string) error`,
with the directory contents passed explicitly. -/
def loadMigrations (files : List MigFile) : Except String (List Migration) :=
  match loadMigrationsAux files with
  | .error e => .error e
  | .ok ms => .ok (sortByVersion ms)

/-- The entry loop of `seeder.go` `LoadSeeds`: for each `.sql` entry the
file is read; a read failure is returned immediately.  The second component
is the list of files whose read was attempted, in order. -/
def loadSeedsAux : List (String × Except String String) → Except String (List Seed) × List String
  | [] => (.ok [], [])
  | (n, content) :: rest =>
    if fileExt n = ".sql" then
      match content with
      | .error e => (.error e, [n])
      | .ok c =>
        match loadSeedsAux rest with
        | (.error e, reads) => (.error e, n :: reads)
        | (.ok seeds, reads) => (.ok ({ name := n, sql := c } :: seeds), n :: reads)
    else loadSeedsAux rest

/-- Insertion into an ascending-by-name seed list. -/
def insertSeedByName (sd : Seed) : List Seed → List Seed
  | [] => [sd]
  | x :: xs => if sd.name < x.name then sd :: x :: xs else x :: insertSeedByName sd xs

/-- The `sort.Slice` call of `LoadSeeds` (ascending by file name). -/
def sortSeedsByName : List Seed → List Seed
  | [] => []
  | sd :: rest => insertSeedByName sd (sortSeedsByName rest)

/-- Source `seeder.go`: `func (s *Seeder) LoadSeeds() error`, with the embedded
directory entries (name and read outcome) passed explicitly.  The second
component is the list of files whose read was attempted. -/
def loadSeeds (entries : List (String × Except String String)) :
    Except String (List Seed) × List String :=
  match loadSeedsAux entries with
  | (.error e, reads) => (.error e, reads)
  | (.ok seeds, reads) => (.ok (sortSeedsByName seeds), reads)

/-- The seed loader as the spec describes it: keep going past `.sql` files
that fail to read and return one aggregate error listing every failing file;
only when no read fails, return the sorted seed list.  This definition
follows the spec's words and exists only to be compared with `loadSeeds`,
which is translated from the code. -/
def loadSeedsAggregateSpec (entries : List (String × Except String String)) :
    Except String (List Seed) :=
  let sqlEntries := entries.filter (fun p => fileExt p.1 == ".sql")
  let failures := (sqlEntries.filter (fun p => p.2.isOk = false)).map Prod.fst
  if failures.isEmpty then
    .ok (sortSeedsByName (sqlEntries.filterMap
      (fun p => match p.2 with
        | .ok c => some { name := p.1, sql := c }
        | .error _ => none)))
  else .error ("failed to read seed files: " ++ String.intercalate ", " failures)

/-- Sequential execution of a statement list inside one transaction (spec
wording); stops at the first failure. -/
def execStmtsSpec (exec : String → σ → Option σ) (name : String) :
    List String → σ → Option σ × List Event
  | [], sch => (some sch, [])
  | stmt :: rest, sch =>
    match exec stmt sch with
    | none => (none, [Event.execStmt name stmt])
    | some sch' =>
      let r := execStmtsSpec exec name rest sch'
      (r.1, Event.execStmt name stmt :: r.2)

/-- Spec description of `executeSeed`: split the body on `";"`, trim
each piece, skip the blank ones, execute the pieces sequentially inside the
transaction, commit; on a failure roll the transaction back and return the
error.  This definition follows the spec's words and exists only to be
compared with `executeSeed`, which is translated from the code. -/
def executeSeedSplitSpec (exec : String → σ → Option σ) (sd : Seed) (s : DBState σ) :
    StepResult σ :=
  let stmts := ((goSplit [';'] sd.sql.toList).map
    (fun l => String.mk (trimSpace l))).filter (fun st => st ≠ "")
  match execStmtsSpec exec sd.name stmts s.schema with
  | (none, evs) => ⟨s, evs, some ("error executing seed " ++ sd.name)⟩
  | (some sch, evs) => ⟨{ s with schema := sch }, evs, none⟩

/-- The versions of the `execUp` events of a trace, in order. -/
def upVersions : List Event → List Int
  | [] => []
  | Event.execUp v :: rest => v :: upVersions rest
  | _ :: rest => upVersions rest

/-- The versions of the `execDown` events of a trace, in order. -/
def downVersions : List Event → List Int
  | [] => []
  | Event.execDown v :: rest => v :: downVersions rest
  | _ :: rest => downVersions rest

/-- The events produced by running a list of fresh migrations successfully. -/
def upEvents : List Migration → List Event
  | [] => []
  | m :: ms => Event.execUp m.version :: Event.insertLedger m.version :: upEvents ms

/-- The events produced by rolling back a list of versions successfully. -/
def downEvents : List Int → List Event
  | [] => []
  | v :: vs => Event.execDown v :: Event.deleteLedger v :: downEvents vs

/-! Concrete fixtures used to instantiate the theorems below.  The schema is
modelled as the list of SQL texts successfully executed against it
(`applyExec`, `scriptExec`), or as an integer counter (`intExec`). -/

/-- An execution model in which every statement succeeds. -/
def applyExec (sql : String) (sch : List String) : Option (List String) :=
  some (sch ++ [sql])

/-- An execution model in which exactly the statement `"FAIL"` fails. -/
def scriptExec (sql : String) (sch : List String) : Option (List String) :=
  if sql = "FAIL" then none else some (sch ++ [sql])

/-- An execution model over an integer schema where `"U"` increments and
`"D"` decrements (so `"D"` exactly inverts `"U"`); anything else fails. -/
def intExec (sql : String) (n : Int) : Option Int :=
  if sql = "U" then some (n + 1) else if sql = "D" then some (n - 1) else none

def mig1 : Migration := ⟨1, "001_users.sql", "U1", "D1"⟩

def mig2 : Migration := ⟨2, "002_posts.sql", "U2", "D2"⟩

def migFailing : Migration := ⟨3, "003_bad.sql", "FAIL", "D3"⟩

def migUD : Migration := ⟨5, "005_next.sql", "U", "D"⟩

def dbEmpty : DBState (List String) := ⟨false, [], []⟩

def dbWith1 : DBState (List String) := ⟨false, [(1, "001_users.sql")], []⟩

def dbInt10 : DBState Int := ⟨true, [(10, "010_old.sql")], 0⟩

def dbInt3 : DBState Int := ⟨false, [(3, "003_old.sql")], 0⟩

def dbTwoApplied : DBState (List String) :=
  ⟨true, [(1, "001_users.sql"), (2, "002_posts.sql")], []⟩

def seedFailing : Seed := ⟨"01_users.sql", "FAIL"⟩

def seedOk : Seed := ⟨"02_posts.sql", "INSERT 2"⟩

def seedSemi : Seed := ⟨"01_users.sql", "A;B"⟩

def entriesTwoBad : List (String × Except String String) :=
  [("a.sql", .error "read error a"), ("b.sql", .error "read error b"),
    ("c.sql", .ok "SELECT 1")]

def entriesMixed : List (String × Except String String) :=
  [("0.sql", .ok "S0"), ("skip.txt", .error "never read"), ("a.sql", .error "boom"),
    ("b.sql", .error "later")]

theorem contains_iff (l : List Int) (v : Int) : contains l v = true ↔ v ∈ l := by
  induction l with
  | nil => simp [contains]
  | cons x xs ih =>
    by_cases h : x = v <;> simp [contains, h, ih]
    exact fun hv => (h hv.symm).elim

theorem contains_eq_false_iff (l : List Int) (v : Int) :
    contains l v = false ↔ v ∉ l := by
  rw [← contains_iff]
  cases contains l v <;> simp

theorem insertDesc_perm (v : Int) (l : List Int) : (insertDesc v l).Perm (v :: l) := by
  induction l with
  | nil => simp [insertDesc]
  | cons x xs ih =>
    by_cases h : x ≤ v
    · simp [insertDesc, h]
    · simp only [insertDesc, if_neg h]
      exact ((ih.cons x).trans (List.Perm.swap v x xs))

theorem sortDesc_perm (l : List Int) : (sortDesc l).Perm l := by
  induction l with
  | nil => simp [sortDesc]
  | cons x xs ih => exact (insertDesc_perm x (sortDesc xs)).trans (ih.cons x)

theorem mem_sortDesc (l : List Int) (v : Int) : v ∈ sortDesc l ↔ v ∈ l :=
  (sortDesc_perm l).mem_iff

theorem contains_sortDesc (l : List Int) (v : Int) :
    contains (sortDesc l) v = contains l v := by
  cases h : contains l v
  · rw [contains_eq_false_iff] at h ⊢
    simpa [mem_sortDesc] using h
  · rw [contains_iff] at h ⊢
    simpa [mem_sortDesc] using h

theorem insertDesc_sorted (v : Int) (l : List Int)
    (h : l.Pairwise (fun a b => b ≤ a)) :
    (insertDesc v l).Pairwise (fun a b => b ≤ a) := by
  induction l with
  | nil => simp [insertDesc]
  | cons x xs ih =>
    obtain ⟨hx, hxs⟩ := List.pairwise_cons.mp h
    by_cases hle : x ≤ v
    · simp only [insertDesc, if_pos hle]
      refine List.pairwise_cons.mpr ⟨?_, h⟩
      intro b hb
      rcases List.mem_cons.mp hb with rfl | hb2
      · exact hle
      · exact le_trans (hx _ hb2) hle
    · simp only [insertDesc, if_neg hle]
      refine List.pairwise_cons.mpr ⟨?_, ih hxs⟩
      intro b hb
      rcases List.mem_cons.mp ((insertDesc_perm v xs).mem_iff.mp hb) with rfl | hb2
      · exact le_of_not_le hle
      · exact hx _ hb2

theorem sortDesc_sorted (l : List Int) :
    (sortDesc l).Pairwise (fun a b => b ≤ a) := by
  induction l with
  | nil => simp [sortDesc]
  | cons x xs ih => exact insertDesc_sorted x (sortDesc xs) ih

theorem sortDesc_strict (l : List Int) (h : l.Nodup) :
    (sortDesc l).Pairwise (fun a b => b < a) := by
  have hnd : (sortDesc l).Nodup := (sortDesc_perm l).nodup_iff.mpr h
  exact ((sortDesc_sorted l).and hnd).imp
    (fun hab => lt_of_le_of_ne hab.1 (Ne.symm hab.2))

theorem sortDesc_append_gt (l : List Int) (v : Int) (h : ∀ x ∈ l, x < v) :
    sortDesc (l ++ [v]) = v :: sortDesc l := by
  induction l with
  | nil => simp [sortDesc, insertDesc]
  | cons x xs ih =>
    have hx := h x (by simp)
    have hxs : ∀ y ∈ xs, y < v := fun y hy => h y (by simp [hy])
    have hnot : ¬ v ≤ x := not_le.mpr hx
    show sortDesc (x :: (xs ++ [v])) = v :: sortDesc (x :: xs)
    simp only [sortDesc]
    rw [ih hxs]
    simp only [insertDesc, if_neg hnot]

theorem upVersions_append (a b : List Event) :
    upVersions (a ++ b) = upVersions a ++ upVersions b := by
  induction a with
  | nil => simp [upVersions]
  | cons e rest ih => cases e <;> simp [upVersions, ih]

theorem downVersions_append (a b : List Event) :
    downVersions (a ++ b) = downVersions a ++ downVersions b := by
  induction a with
  | nil => simp [downVersions]
  | cons e rest ih => cases e <;> simp [downVersions, ih]

theorem upVersions_upEvents (migs : List Migration) :
    upVersions (upEvents migs) = migs.map Migration.version := by
  induction migs with
  | nil => simp [upEvents, upVersions]
  | cons m ms ih => simp [upEvents, upVersions, ih]

theorem downVersions_downEvents (vs : List Int) :
    downVersions (downEvents vs) = vs := by
  induction vs with
  | nil => simp [downEvents, downVersions]
  | cons v rest ih => simp [downEvents, downVersions, ih]

section MigrateLemmas

variable (exec : String → σ → Option σ) (applied : List Int)

theorem runMigration_tableExists (mig : Migration) (s : DBState σ) :
    (runMigration exec mig s).state.tableExists = s.tableExists := by
  cases hx : exec mig.upSQL s.schema with
  | none => simp [runMigration, hx]
  | some sch =>
    by_cases hc : contains (ledgerVersions s) mig.version = true <;>
      simp [runMigration, hx, hc]

theorem runMigration_err_state (mig : Migration) (s : DBState σ)
    (h : (runMigration exec mig s).err ≠ none) :
    (runMigration exec mig s).state = s := by
  cases hx : exec mig.upSQL s.schema with
  | none => simp [runMigration, hx]
  | some sch =>
    by_cases hc : contains (ledgerVersions s) mig.version = true
    · simp [runMigration, hx, hc]
    · exfalso
      apply h
      simp [runMigration, hx, hc]

theorem runMigration_ledger (mig : Migration) (s : DBState σ) :
    ∃ extra, (runMigration exec mig s).state.ledger = s.ledger ++ extra ∧
      ∀ p ∈ extra, p.1 = mig.version := by
  cases hx : exec mig.upSQL s.schema with
  | none => exact ⟨[], by simp [runMigration, hx]⟩
  | some sch =>
    by_cases hc : contains (ledgerVersions s) mig.version = true
    · exact ⟨[], by simp [runMigration, hx, hc]⟩
    · exact ⟨[(mig.version, mig.name)], by simp [runMigration, hx, hc]⟩

theorem runMigration_ok_mem (mig : Migration) (s : DBState σ)
    (h : (runMigration exec mig s).err = none) :
    mig.version ∈ ledgerVersions (runMigration exec mig s).state := by
  cases hx : exec mig.upSQL s.schema with
  | none => simp [runMigration, hx] at h
  | some sch =>
    by_cases hc : contains (ledgerVersions s) mig.version = true
    · simp [runMigration, hx, hc] at h
    · have hrun : runMigration exec mig s =
          ⟨{ s with schema := sch, ledger := s.ledger ++ [(mig.version, mig.name)] },
            [Event.execUp mig.version, Event.insertLedger mig.version], none⟩ := by
        simp [runMigration, hx, hc]
      rw [hrun]
      simp [ledgerVersions]

theorem migrateLoop_tableExists (migs : List Migration) (s : DBState σ) :
    (migrateLoop exec applied migs s).state.tableExists = s.tableExists := by
  induction migs generalizing s with
  | nil => simp [migrateLoop]
  | cons mig rest ih =>
    by_cases hc : contains applied mig.version = true
    · simp [migrateLoop, hc, ih]
    · cases hr : (runMigration exec mig s).err with
      | some e =>
        simp [migrateLoop, hc, hr, runMigration_tableExists]
      | none =>
        simp [migrateLoop, hc, hr, ih, runMigration_tableExists]

theorem migrateLoop_ledger_extend (migs : List Migration) (s : DBState σ) :
    ∃ extra, (migrateLoop exec applied migs s).state.ledger = s.ledger ++ extra ∧
      ∀ p ∈ extra, p.1 ∈ migs.map Migration.version := by
  induction migs generalizing s with
  | nil => exact ⟨[], by simp [migrateLoop]⟩
  | cons mig rest ih =>
    by_cases hc : contains applied mig.version = true
    · obtain ⟨extra, he, hmem⟩ := ih s
      exact ⟨extra, by simpa [migrateLoop, hc] using he,
        fun p hp => by simpa using Or.inr (by simpa using hmem p hp)⟩
    · cases hr : (runMigration exec mig s).err with
      | some e =>
        obtain ⟨extra, he, hmem⟩ := runMigration_ledger exec mig s
        refine ⟨extra, by simpa [migrateLoop, hc, hr] using he, ?_⟩
        intro p hp
        simp [hmem p hp]
      | none =>
        obtain ⟨e1, he1, hm1⟩ := runMigration_ledger exec mig s
        obtain ⟨e2, he2, hm2⟩ := ih (runMigration exec mig s).state
        refine ⟨e1 ++ e2, ?_, ?_⟩
        · simp only [migrateLoop, hc, if_neg, hr]
          simp [migrateLoop, hc, hr, he2, he1]
        · intro p hp
          rcases List.mem_append.mp hp with h1 | h2
          · simp [hm1 p h1]
          · simpa using Or.inr (by simpa using hm2 p h2)

theorem migrateLoop_skip_all (migs : List Migration) (s : DBState σ)
    (h : ∀ mig ∈ migs, contains applied mig.version = true) :
    migrateLoop exec applied migs s = ⟨s, [], none⟩ := by
  induction migs with
  | nil => simp [migrateLoop]
  | cons mig rest ih =>
    have hc := h mig (by simp)
    simp only [migrateLoop, hc, if_pos]
    exact ih (fun m hm => h m (by simp [hm]))

theorem migrateLoop_ok (migs : List Migration) (s : DBState σ)
    (hnd : (migs.map Migration.version).Nodup)
    (hexec : ∀ mig ∈ migs, ∀ sch, (exec mig.upSQL sch).isSome = true)
    (hfresh : ∀ mig ∈ migs, contains applied mig.version = false →
      mig.version ∉ ledgerVersions s) :
    (migrateLoop exec applied migs s).err = none ∧
    (migrateLoop exec applied migs s).events
      = upEvents (migs.filter (fun m => !contains applied m.version)) ∧
    (migrateLoop exec applied migs s).state.ledger
      = s.ledger ++ (migs.filter (fun m => !contains applied m.version)).map
          (fun m => (m.version, m.name)) := by
  induction migs generalizing s with
  | nil => simp [migrateLoop, upEvents]
  | cons mig rest ih =>
    have hnd2 : (mig.version :: rest.map Migration.version).Nodup := by
      rw [List.map_cons] at hnd
      exact hnd
    have hndr : (rest.map Migration.version).Nodup := (List.nodup_cons.mp hnd2).2
    have hnotr : mig.version ∉ rest.map Migration.version := (List.nodup_cons.mp hnd2).1
    cases hc : contains applied mig.version with
    | true =>
      have := ih s hndr
        (fun m hm sch => hexec m (by simp [hm]) sch)
        (fun m hm hf => hfresh m (by simp [hm]) hf)
      simpa [migrateLoop, hc] using this
    | false =>
      obtain ⟨sch, hx⟩ := Option.isSome_iff_exists.mp
        (hexec mig (by simp) s.schema)
      have hpk : contains (ledgerVersions s) mig.version = false :=
        (contains_eq_false_iff _ _).mpr (hfresh mig (by simp) hc)
      have hrun : runMigration exec mig s =
          ⟨{ s with schema := sch, ledger := s.ledger ++ [(mig.version, mig.name)] },
            [Event.execUp mig.version, Event.insertLedger mig.version], none⟩ := by
        simp [runMigration, hx, hpk]
      have hfresh' : ∀ m ∈ rest, contains applied m.version = false →
          m.version ∉ ledgerVersions (runMigration exec mig s).state := by
        intro m hm hf
        rw [hrun]
        simp only [ledgerVersions, List.map_append]
        intro hmem
        rcases List.mem_append.mp hmem with h1 | h2
        · exact hfresh m (by simp [hm]) hf h1
        · simp at h2
          exact hnotr (h2 ▸ List.mem_map_of_mem Migration.version hm)
      obtain ⟨ihe, ihv, ihl⟩ := ih (runMigration exec mig s).state hndr
        (fun m hm sch => hexec m (by simp [hm]) sch) hfresh'
      rw [hrun] at ihe ihv ihl
      refine ⟨?_, ?_, ?_⟩ <;>
        simp [migrateLoop, hc, hrun, ihe, ihv, ihl, List.filter_cons, upEvents]

theorem migrateLoop_covers (migs : List Migration) (s : DBState σ)
    (h : (migrateLoop exec applied migs s).err = none) :
    ∀ mig ∈ migs, contains applied mig.version = true ∨
      mig.version ∈ ledgerVersions (migrateLoop exec applied migs s).state := by
  induction migs generalizing s with
  | nil => simp
  | cons mig rest ih =>
    by_cases hc : contains applied mig.version = true
    · intro m hm
      rcases List.mem_cons.mp hm with rfl | hm2
      · exact Or.inl hc
      · have h' : (migrateLoop exec applied rest s).err = none := by
          simpa [migrateLoop, hc] using h
        have := ih s h' m hm2
        simpa [migrateLoop, hc] using this
    · cases hr : (runMigration exec mig s).err with
      | some e => simp [migrateLoop, hc, hr] at h
      | none =>
        have h' : (migrateLoop exec applied rest (runMigration exec mig s).state).err
            = none := by
          simpa [migrateLoop, hc, hr] using h
        intro m hm
        rcases List.mem_cons.mp hm with rfl | hm2
        · right
          have hmem := runMigration_ok_mem exec m s hr
          obtain ⟨extra, he, _⟩ :=
            migrateLoop_ledger_extend exec applied rest (runMigration exec m s).state
          have : ledgerVersions (migrateLoop exec applied rest
              (runMigration exec m s).state).state
              = ledgerVersions (runMigration exec m s).state ++ extra.map Prod.fst := by
            simp [ledgerVersions, he]
          rw [show (migrateLoop exec applied (m :: rest) s).state
              = (migrateLoop exec applied rest (runMigration exec m s).state).state by
            simp [migrateLoop, hc, hr]]
          rw [this]
          exact List.mem_append.mpr (Or.inl hmem)
        · have := ih (runMigration exec mig s).state h' m hm2
          rcases this with h1 | h2
          · exact Or.inl h1
          · right
            rw [show (migrateLoop exec applied (mig :: rest) s).state
                = (migrateLoop exec applied rest (runMigration exec mig s).state).state by
              simp [migrateLoop, hc, hr]]
            exact h2

theorem migrateLoop_append (l1 l2 : List Migration) (s : DBState σ)
    (h : (migrateLoop exec applied l1 s).err = none) :
    migrateLoop exec applied (l1 ++ l2) s =
      ⟨(migrateLoop exec applied l2 (migrateLoop exec applied l1 s).state).state,
        (migrateLoop exec applied l1 s).events ++
          (migrateLoop exec applied l2 (migrateLoop exec applied l1 s).state).events,
        (migrateLoop exec applied l2 (migrateLoop exec applied l1 s).state).err⟩ := by
  induction l1 generalizing s with
  | nil => simp [migrateLoop]
  | cons mig rest ih =>
    by_cases hc : contains applied mig.version = true
    · have h' : (migrateLoop exec applied rest s).err = none := by
        simpa [migrateLoop, hc] using h
      simpa [migrateLoop, hc] using ih s h'
    · cases hr : (runMigration exec mig s).err with
      | some e => simp [migrateLoop, hc, hr] at h
      | none =>
        have h' : (migrateLoop exec applied rest (runMigration exec mig s).state).err
            = none := by
          simpa [migrateLoop, hc, hr] using h
        have := ih (runMigration exec mig s).state h'
        simp [migrateLoop, hc, hr, this]

theorem migrate_def (migs : List Migration) (s : DBState σ) :
    migrate exec migs s
      = migrateLoop exec (sortDesc (ledgerVersions s)) migs (createMigrationsTable s) := by
  simp [migrate, getAppliedMigrations, createMigrationsTable, ledgerVersions]

end MigrateLemmas

theorem insertAsc_perm (m : Migration) (l : List Migration) :
    (insertAsc m l).Perm (m :: l) := by
  induction l with
  | nil => simp [insertAsc]
  | cons x xs ih =>
    by_cases h : m.version < x.version
    · simp [insertAsc, h]
    · simp only [insertAsc, if_neg h]
      exact (ih.cons x).trans (List.Perm.swap m x xs)

theorem insertAsc_sorted (m : Migration) (l : List Migration)
    (h : l.Pairwise (fun a b => a.version ≤ b.version)) :
    (insertAsc m l).Pairwise (fun a b => a.version ≤ b.version) := by
  induction l with
  | nil => simp [insertAsc]
  | cons x xs ih =>
    obtain ⟨hx, hxs⟩ := List.pairwise_cons.mp h
    by_cases hlt : m.version < x.version
    · simp only [insertAsc, if_pos hlt]
      refine List.pairwise_cons.mpr ⟨?_, h⟩
      intro b hb
      rcases List.mem_cons.mp hb with rfl | hb2
      · exact le_of_lt hlt
      · exact le_trans (le_of_lt hlt) (hx _ hb2)
    · simp only [insertAsc, if_neg hlt]
      refine List.pairwise_cons.mpr ⟨?_, ih hxs⟩
      intro b hb
      rcases List.mem_cons.mp ((insertAsc_perm m xs).mem_iff.mp hb) with rfl | hb2
      · exact le_of_not_lt hlt
      · exact hx _ hb2

theorem sortByVersion_sorted (l : List Migration) :
    (sortByVersion l).Pairwise (fun a b => a.version ≤ b.version) := by
  induction l with
  | nil => simp [sortByVersion]
  | cons m ms ih => exact insertAsc_sorted m (sortByVersion ms) ih

/-- Claim C1: For every list of loaded migration definitions with distinct
versions and every set of previously applied versions, `Migrate()` applies
each definition whose version is not in the applied set exactly once,
walking the list in ascending version order, and afterwards the ledger
contains exactly the union of the previously applied versions and the newly
applied versions.  (The loaded list is ascending because `LoadMigrations`
sorts it — last conjunct; the trace of `execUp` events is exactly one per
unapplied definition, in ascending version order.) -/
theorem migrate_applies_unapplied_ascending
    (exec : String → σ → Option σ) (migs : List Migration) (s : DBState σ)
    (hnd : (migs.map Migration.version).Nodup)
    (hsorted : migs.Pairwise (fun a b => a.version < b.version))
    (hexec : ∀ mig ∈ migs, ∀ sch, (exec mig.upSQL sch).isSome = true) :
    (migrate exec migs s).err = none ∧
    upVersions (migrate exec migs s).events
      = (migs.filter (fun m => !contains (ledgerVersions s) m.version)).map
          Migration.version ∧
    (upVersions (migrate exec migs s).events).Pairwise (fun a b => a < b) ∧
    (migrate exec migs s).state.ledger
      = s.ledger ++ (migs.filter (fun m => !contains (ledgerVersions s) m.version)).map
          (fun m => (m.version, m.name)) ∧
    (∀ v, v ∈ ledgerVersions (migrate exec migs s).state ↔
      v ∈ ledgerVersions s ∨ v ∈ migs.map Migration.version) ∧
    (∀ files ms, loadMigrations files = .ok ms →
      ms.Pairwise (fun a b => a.version ≤ b.version)) := by
  have hlv : ledgerVersions (createMigrationsTable s) = ledgerVersions s := by
    simp [createMigrationsTable, ledgerVersions]
  have hfresh : ∀ mig ∈ migs,
      contains (sortDesc (ledgerVersions s)) mig.version = false →
      mig.version ∉ ledgerVersions (createMigrationsTable s) := by
    intro m _ hf
    rw [hlv]
    rw [contains_sortDesc] at hf
    exact (contains_eq_false_iff _ _).mp hf
  obtain ⟨he, hv, hl⟩ := migrateLoop_ok exec (sortDesc (ledgerVersions s)) migs
    (createMigrationsTable s) hnd hexec hfresh
  have hfc : migs.filter (fun m => !contains (sortDesc (ledgerVersions s)) m.version)
      = migs.filter (fun m => !contains (ledgerVersions s) m.version) := by
    apply List.filter_congr
    intro m _
    rw [contains_sortDesc]
  rw [hfc] at hv hl
  rw [migrate_def]
  have hledg : (migrateLoop exec (sortDesc (ledgerVersions s)) migs
        (createMigrationsTable s)).state.ledger
      = s.ledger ++ (migs.filter (fun m => !contains (ledgerVersions s) m.version)).map
          (fun m => (m.version, m.name)) := by
    rw [hl]
    simp [createMigrationsTable]
  have hvers : ledgerVersions (migrateLoop exec (sortDesc (ledgerVersions s)) migs
        (createMigrationsTable s)).state
      = ledgerVersions s
        ++ (migs.filter (fun m => !contains (ledgerVersions s) m.version)).map
            Migration.version := by
    have hdef : ∀ (st : DBState σ), ledgerVersions st = st.ledger.map Prod.fst :=
      fun _ => rfl
    rw [hdef, hledg, List.map_append, List.map_map]
    rfl
  refine ⟨he, ?_, ?_, hledg, ?_, ?_⟩
  · rw [hv, upVersions_upEvents]
  · rw [hv, upVersions_upEvents, List.pairwise_map]
    exact hsorted.filter _
  · intro v
    rw [hvers]
    constructor
    · intro hmem
      rcases List.mem_append.mp hmem with h1 | h2
      · exact Or.inl h1
      · right
        obtain ⟨m, hm, rfl⟩ := List.mem_map.mp h2
        exact List.mem_map_of_mem _ (List.mem_of_mem_filter hm)
    · intro hmem
      rcases hmem with h1 | h2
      · exact List.mem_append.mpr (Or.inl h1)
      · by_cases hin : v ∈ ledgerVersions s
        · exact List.mem_append.mpr (Or.inl hin)
        · refine List.mem_append.mpr (Or.inr ?_)
          obtain ⟨m, hm, rfl⟩ := List.mem_map.mp h2
          refine List.mem_map.mpr ⟨m, List.mem_filter.mpr ⟨hm, ?_⟩, rfl⟩
          simp [contains_eq_false_iff, hin]
  · intro files ms hms
    unfold loadMigrations at hms
    cases hla : loadMigrationsAux files with
    | error e => rw [hla] at hms; cases hms
    | ok ms' =>
      rw [hla] at hms
      cases hms
      exact sortByVersion_sorted ms'

/-- Witness for C1: two loaded migrations with versions 1 and 2, version 1
already applied; `Migrate()` applies exactly version 2 and the ledger ends
with versions {1, 2}. -/
theorem migrate_applies_unapplied_ascending_witness :
    (migrate applyExec [mig1, mig2] dbWith1).err = none ∧
    upVersions (migrate applyExec [mig1, mig2] dbWith1).events = [2] ∧
    (migrate applyExec [mig1, mig2] dbWith1).state.ledger
      = [(1, "001_users.sql"), (2, "002_posts.sql")] ∧
    (∀ v, v ∈ ledgerVersions (migrate applyExec [mig1, mig2] dbWith1).state ↔
      v ∈ ledgerVersions dbWith1 ∨ v ∈ [mig1, mig2].map Migration.version) := by
  obtain ⟨h1, h2, _, h4, h5, _⟩ := migrate_applies_unapplied_ascending
    applyExec [mig1, mig2] dbWith1
    (by decide) (by decide)
    (fun mig _ sch => rfl)
  refine ⟨h1, ?_, ?_, h5⟩
  · rw [h2]; decide
  · rw [h4]; decide

theorem migrate_tableExists (exec : String → σ → Option σ) (migs : List Migration)
    (s : DBState σ) : (migrate exec migs s).state.tableExists = true := by
  rw [migrate_def, migrateLoop_tableExists]
  rfl

theorem createMigrationsTable_eq_self {s : DBState σ} (h : s.tableExists = true) :
    createMigrationsTable s = s := by
  cases s
  simp only [createMigrationsTable]
  simp_all

theorem migrate_ledger_monotone (exec : String → σ → Option σ) (migs : List Migration)
    (s : DBState σ) :
    ∀ v ∈ ledgerVersions s, v ∈ ledgerVersions (migrate exec migs s).state := by
  intro v hv
  rw [migrate_def]
  obtain ⟨extra, he, _⟩ := migrateLoop_ledger_extend exec (sortDesc (ledgerVersions s))
    migs (createMigrationsTable s)
  have : ledgerVersions (migrateLoop exec (sortDesc (ledgerVersions s)) migs
      (createMigrationsTable s)).state
      = ledgerVersions s ++ extra.map Prod.fst := by
    have hdef : ∀ (st : DBState σ), ledgerVersions st = st.ledger.map Prod.fst :=
      fun _ => rfl
    rw [hdef, he, List.map_append]
    rfl
  rw [this]
  exact List.mem_append.mpr (Or.inl hv)

/-- Counterexample for C5: one loaded migration whose up-statement fails.  The
first `Migrate()` call fails; calling `Migrate()` again with no external
change executes the failing up-statement a second time — one up-statement
execution during the second call, not zero. -/
theorem migrate_twice_reexecutes_failing_up :
    (migrate scriptExec [migFailing] dbEmpty).err ≠ none ∧
    upVersions (migrate scriptExec [migFailing]
      (migrate scriptExec [migFailing] dbEmpty).state).events = [3] := by
  decide

/-- Claim C5 (amended): if the first `Migrate()` call succeeds, then calling
`Migrate()` again with the same loaded definitions and no external change
performs zero ledger inserts and zero up-statement executions (the trace of
the second call is empty) and leaves the database state unchanged. -/
theorem migrate_idempotent_after_success (exec : String → σ → Option σ)
    (migs : List Migration) (s : DBState σ)
    (h1 : (migrate exec migs s).err = none) :
    migrate exec migs (migrate exec migs s).state
      = ⟨(migrate exec migs s).state, [], none⟩ := by
  have htab : (migrate exec migs s).state.tableExists = true :=
    migrate_tableExists exec migs s
  have hcov : ∀ mig ∈ migs, mig.version ∈ ledgerVersions (migrate exec migs s).state := by
    intro mig hm
    rw [migrate_def] at h1 ⊢
    rcases migrateLoop_covers exec (sortDesc (ledgerVersions s)) migs
      (createMigrationsTable s) h1 mig hm with hc | hc
    · have hv : mig.version ∈ ledgerVersions s := by
        have := (contains_iff _ _).mp hc
        rwa [mem_sortDesc] at this
      have := migrate_ledger_monotone exec migs s mig.version hv
      rwa [migrate_def] at this
    · exact hc
  rw [migrate_def exec migs (migrate exec migs s).state,
    createMigrationsTable_eq_self htab]
  apply migrateLoop_skip_all
  intro mig hm
  rw [contains_sortDesc, contains_iff]
  exact hcov mig hm

/-- Witness for C5 (amended): both fixture migrations succeed; after a
successful `Migrate()`, a second call is a no-op with an empty trace. -/
theorem migrate_idempotent_after_success_witness :
    migrate applyExec [mig1, mig2] (migrate applyExec [mig1, mig2] dbEmpty).state
      = ⟨(migrate applyExec [mig1, mig2] dbEmpty).state, [], none⟩ :=
  migrate_idempotent_after_success applyExec [mig1, mig2] dbEmpty (by decide)

/-- Claim C3: if executing the up-statements of one definition (or recording its
ledger row) fails, that single transaction is rolled back — the database
state after the failing `runMigration` equals the state before it, and the
ledger has no row for that version — `Migrate()` returns the wrapped error
immediately (no later definition is processed), and the migrations
committed in earlier iterations of the same call remain applied (the final
state is exactly the state after the successful prefix). -/
theorem migrate_item_failure_atomic (exec : String → σ → Option σ)
    (pre : List Migration) (bad : Migration) (post : List Migration) (s : DBState σ)
    (hnd : ((pre ++ bad :: post).map Migration.version).Nodup)
    (hfresh : bad.version ∉ ledgerVersions s)
    (hpre : (migrate exec pre s).err = none)
    (hfail : (runMigration exec bad (migrate exec pre s).state).err ≠ none) :
    (migrate exec (pre ++ bad :: post) s).state = (migrate exec pre s).state ∧
    (runMigration exec bad (migrate exec pre s).state).state
      = (migrate exec pre s).state ∧
    bad.version ∉ ledgerVersions (migrate exec (pre ++ bad :: post) s).state ∧
    (∃ e, (runMigration exec bad (migrate exec pre s).state).err = some e ∧
      (migrate exec (pre ++ bad :: post) s).err
        = some ("failed to run migration " ++ bad.name ++ ": " ++ e)) ∧
    (migrate exec (pre ++ bad :: post) s).events
      = (migrate exec pre s).events
        ++ (runMigration exec bad (migrate exec pre s).state).events := by
  rw [migrate_def] at hpre hfail ⊢
  rw [migrate_def]
  have happ := migrateLoop_append exec (sortDesc (ledgerVersions s)) pre (bad :: post)
    (createMigrationsTable s) hpre
  have hcb : contains (sortDesc (ledgerVersions s)) bad.version = false := by
    rw [contains_sortDesc]
    exact (contains_eq_false_iff _ _).mpr hfresh
  have hstate := runMigration_err_state exec bad
    (migrateLoop exec (sortDesc (ledgerVersions s)) pre (createMigrationsTable s)).state
    hfail
  cases hrb : (runMigration exec bad
      (migrateLoop exec (sortDesc (ledgerVersions s)) pre
        (createMigrationsTable s)).state).err with
  | none => exact absurd hrb hfail
  | some e =>
    have hloop2 : migrateLoop exec (sortDesc (ledgerVersions s)) (bad :: post)
        (migrateLoop exec (sortDesc (ledgerVersions s)) pre
          (createMigrationsTable s)).state
        = ⟨(migrateLoop exec (sortDesc (ledgerVersions s)) pre
              (createMigrationsTable s)).state,
            (runMigration exec bad
              (migrateLoop exec (sortDesc (ledgerVersions s)) pre
                (createMigrationsTable s)).state).events,
            some ("failed to run migration " ++ bad.name ++ ": " ++ e)⟩ := by
      simp only [migrateLoop, hcb]
      simp [hrb, hstate]
    have hnotpre : bad.version ∉ ledgerVersions
        (migrateLoop exec (sortDesc (ledgerVersions s)) pre
          (createMigrationsTable s)).state := by
      obtain ⟨extra, he, hmem⟩ := migrateLoop_ledger_extend exec
        (sortDesc (ledgerVersions s)) pre (createMigrationsTable s)
      have hvers : ledgerVersions (migrateLoop exec (sortDesc (ledgerVersions s)) pre
          (createMigrationsTable s)).state
          = ledgerVersions s ++ extra.map Prod.fst := by
        have hdef : ∀ (st : DBState σ), ledgerVersions st = st.ledger.map Prod.fst :=
          fun _ => rfl
        rw [hdef, he, List.map_append]
        rfl
      rw [hvers]
      intro hin
      rcases List.mem_append.mp hin with h1 | h2
      · exact hfresh h1
      · obtain ⟨p, hp, hpv⟩ := List.mem_map.mp h2
        have hppre : bad.version ∈ pre.map Migration.version := hpv ▸ hmem p hp
        rw [List.map_append, List.map_cons] at hnd
        exact ((List.nodup_append.mp hnd).2.2 hppre) (List.mem_cons_self _ _)
    rw [happ, hloop2]
    exact ⟨rfl, hstate, hnotpre, ⟨e, rfl, rfl⟩, rfl⟩

/-- Witness for C3: prefix `[mig1]` succeeds, `migFailing`'s up-statement
fails, `[mig2]` follows; the run stops at the failure, keeps `mig1`
applied, and records no ledger row for version 3. -/
theorem migrate_item_failure_atomic_witness :
    (migrate scriptExec ([mig1] ++ migFailing :: [mig2]) dbEmpty).state
      = (migrate scriptExec [mig1] dbEmpty).state ∧
    (runMigration scriptExec migFailing (migrate scriptExec [mig1] dbEmpty).state).state
      = (migrate scriptExec [mig1] dbEmpty).state ∧
    migFailing.version ∉ ledgerVersions
      (migrate scriptExec ([mig1] ++ migFailing :: [mig2]) dbEmpty).state ∧
    (∃ e, (runMigration scriptExec migFailing
        (migrate scriptExec [mig1] dbEmpty).state).err = some e ∧
      (migrate scriptExec ([mig1] ++ migFailing :: [mig2]) dbEmpty).err
        = some ("failed to run migration " ++ migFailing.name ++ ": " ++ e)) ∧
    (migrate scriptExec ([mig1] ++ migFailing :: [mig2]) dbEmpty).events
      = (migrate scriptExec [mig1] dbEmpty).events
        ++ (runMigration scriptExec migFailing
              (migrate scriptExec [mig1] dbEmpty).state).events :=
  migrate_item_failure_atomic scriptExec [mig1] migFailing [mig2] dbEmpty
    (by decide) (by decide) (by decide) (by decide)

section RollbackLemmas

variable (exec : String → σ → Option σ) (migs : List Migration)

theorem not_contains_cons (x v : Int) (rest : List Int) :
    (!contains (v :: rest) x) = ((x != v) && !contains rest x) := by
  by_cases h : v = x
  · subst h
    simp [contains, bne]
  · have hvx : ¬ v = x := h
    have hxv : (x != v) = true := by
      simp [bne]
      exact fun hh => h hh.symm
    simp [contains, hvx, hxv]

theorem findMigration_version (v : Int) (mig : Migration)
    (h : findMigration migs v = some mig) : mig.version = v := by
  induction migs with
  | nil => simp [findMigration] at h
  | cons m ms ih =>
    by_cases hmv : m.version = v
    · simp only [findMigration, if_pos hmv] at h
      cases h
      exact hmv
    · simp only [findMigration, if_neg hmv] at h
      exact ih h

theorem rollbackMigration_err_state (mig : Migration) (s : DBState σ)
    (h : (rollbackMigration exec mig s).err ≠ none) :
    (rollbackMigration exec mig s).state = s := by
  cases hx : exec mig.downSQL s.schema with
  | none => simp [rollbackMigration, hx]
  | some sch =>
    exfalso
    apply h
    simp [rollbackMigration, hx]

theorem rollbackLoop_ok : ∀ (applied : List Int) (fuel : Nat) (s : DBState σ),
    (∀ v ∈ applied.take fuel, ∃ mig, findMigration migs v = some mig ∧
      ∀ sch, (exec mig.downSQL sch).isSome = true) →
    (rollbackLoop exec migs applied fuel s).err = none ∧
    (rollbackLoop exec migs applied fuel s).events = downEvents (applied.take fuel) ∧
    (rollbackLoop exec migs applied fuel s).state.ledger
      = s.ledger.filter (fun row => !contains (applied.take fuel) row.1) ∧
    (rollbackLoop exec migs applied fuel s).state.tableExists = s.tableExists := by
  intro applied
  induction applied with
  | nil =>
    intro fuel s _
    cases fuel <;> simp [rollbackLoop, downEvents, contains]
  | cons v rest ih =>
    intro fuel s hfind
    cases fuel with
    | zero => simp [rollbackLoop, downEvents, contains]
    | succ f =>
      obtain ⟨mig, hm, hdown⟩ := hfind v (by simp)
      obtain ⟨sch, hs⟩ := Option.isSome_iff_exists.mp (hdown s.schema)
      have hroll : rollbackMigration exec mig s =
          ⟨⟨s.tableExists, s.ledger.filter (fun row => row.1 != mig.version), sch⟩,
            [Event.execDown mig.version, Event.deleteLedger mig.version], none⟩ := by
        simp [rollbackMigration, hs]
      have hvineq : mig.version = v := findMigration_version migs v mig hm
      subst hvineq
      obtain ⟨ihe, ihv, ihl, iht⟩ := ih f
        ⟨s.tableExists, s.ledger.filter (fun row => row.1 != mig.version), sch⟩
        (fun u hu => hfind u (by simp [hu]))
      refine ⟨?_, ?_, ?_, ?_⟩
      · simp [rollbackLoop, hm, hroll, ihe]
      · simp [rollbackLoop, hm, hroll, ihv, downEvents]
      · have ihl2 : (rollbackLoop exec migs rest f
            ⟨s.tableExists, s.ledger.filter (fun row => row.1 != mig.version), sch⟩).state.ledger
            = (s.ledger.filter (fun row => row.1 != mig.version)).filter
                (fun row => !contains (rest.take f) row.1) := ihl
        simp only [rollbackLoop, hm, hroll, ihl2]
        rw [List.filter_filter, List.take_succ_cons]
        apply List.filter_congr
        intro row _
        rw [not_contains_cons]
        exact Bool.and_comm _ _
      · simp [rollbackLoop, hm, hroll, iht]

theorem rollbackLoop_notfound : ∀ (good : List Int) (v : Int) (tail : List Int)
    (fuel : Nat) (s : DBState σ),
    good.length < fuel →
    (∀ u ∈ good, ∃ mig, findMigration migs u = some mig ∧
      ∀ sch, (exec mig.downSQL sch).isSome = true) →
    findMigration migs v = none →
    (rollbackLoop exec migs (good ++ v :: tail) fuel s).err
        = some ("migration with version " ++ toString v ++ " not found") ∧
    (rollbackLoop exec migs (good ++ v :: tail) fuel s).events = downEvents good ∧
    (rollbackLoop exec migs (good ++ v :: tail) fuel s).state.ledger
      = s.ledger.filter (fun row => !contains good row.1) ∧
    (rollbackLoop exec migs (good ++ v :: tail) fuel s).state.tableExists
      = s.tableExists := by
  intro good
  induction good with
  | nil =>
    intro v tail fuel s hlen _ hnone
    cases fuel with
    | zero => omega
    | succ f => simp [rollbackLoop, hnone, downEvents, contains]
  | cons u us ih =>
    intro v tail fuel s hlen hfind hnone
    cases fuel with
    | zero => omega
    | succ f =>
      obtain ⟨mig, hm, hdown⟩ := hfind u (by simp)
      obtain ⟨sch, hs⟩ := Option.isSome_iff_exists.mp (hdown s.schema)
      have hroll : rollbackMigration exec mig s =
          ⟨⟨s.tableExists, s.ledger.filter (fun row => row.1 != mig.version), sch⟩,
            [Event.execDown mig.version, Event.deleteLedger mig.version], none⟩ := by
        simp [rollbackMigration, hs]
      have hvineq : mig.version = u := findMigration_version migs u mig hm
      subst hvineq
      obtain ⟨ihe, ihv, ihl, iht⟩ := ih v tail f
        ⟨s.tableExists, s.ledger.filter (fun row => row.1 != mig.version), sch⟩
        (by simpa using hlen)
        (fun w hw => hfind w (by simp [hw]))
        hnone
      refine ⟨?_, ?_, ?_, ?_⟩
      · simpa [rollbackLoop, hm, hroll] using ihe
      · simp only [List.cons_append, rollbackLoop, hm, hroll]
        simp [ihv, downEvents]
      · have ihl2 : (rollbackLoop exec migs (us ++ v :: tail) f
            ⟨s.tableExists, s.ledger.filter (fun row => row.1 != mig.version), sch⟩).state.ledger
            = (s.ledger.filter (fun row => row.1 != mig.version)).filter
                (fun row => !contains us row.1) := ihl
        rw [List.cons_append]
        simp only [rollbackLoop, hm, hroll, ihl2]
        rw [List.filter_filter]
        apply List.filter_congr
        intro row _
        rw [not_contains_cons]
        exact Bool.and_comm _ _
      · simpa [rollbackLoop, hm, hroll] using iht

end RollbackLemmas

/-- Claim C4: for every `steps > 0` (with the ledger table present and its
versions distinct, as the primary key guarantees), `Rollback(steps)`
processes exactly the first `min(steps, number of applied versions)` ledger
entries of the descending version list: if every one of them has a loaded
definition and its down-statements succeed, each is rolled back (down
executed, ledger row deleted) in that order; if some entry has no loaded
definition, the call returns the not-found error immediately after the
entries before it, which stay rolled back. -/
theorem rollback_processes_min_steps_desc (exec : String → σ → Option σ)
    (migs : List Migration) (steps : Int) (s : DBState σ)
    (hpos : 0 < steps) (htab : s.tableExists = true)
    (hnodup : (ledgerVersions s).Nodup) :
    ((sortDesc (ledgerVersions s)).take steps.toNat).length
        = min steps.toNat (ledgerVersions s).length ∧
    ((sortDesc (ledgerVersions s)).take steps.toNat).Pairwise (fun a b => b < a) ∧
    ((∀ v ∈ (sortDesc (ledgerVersions s)).take steps.toNat,
        ∃ mig, findMigration migs v = some mig ∧
          ∀ sch, (exec mig.downSQL sch).isSome = true) →
      (rollback exec migs steps s).err = none ∧
      downVersions (rollback exec migs steps s).events
        = (sortDesc (ledgerVersions s)).take steps.toNat ∧
      (rollback exec migs steps s).state.ledger
        = s.ledger.filter (fun row =>
            !contains ((sortDesc (ledgerVersions s)).take steps.toNat) row.1)) ∧
    (∀ good v tail,
      (sortDesc (ledgerVersions s)).take steps.toNat = good ++ v :: tail →
      (∀ u ∈ good, ∃ mig, findMigration migs u = some mig ∧
        ∀ sch, (exec mig.downSQL sch).isSome = true) →
      findMigration migs v = none →
      (rollback exec migs steps s).err
          = some ("migration with version " ++ toString v ++ " not found") ∧
      downVersions (rollback exec migs steps s).events = good ∧
      (rollback exec migs steps s).state.ledger
        = s.ledger.filter (fun row => !contains good row.1)) := by
  have hnle : ¬ steps ≤ 0 := not_le.mpr hpos
  have hrb : rollback exec migs steps s
      = rollbackLoop exec migs (sortDesc (ledgerVersions s)) steps.toNat s := by
    simp [rollback, hnle, getAppliedMigrations, htab]
  refine ⟨?_, ?_, ?_, ?_⟩
  · rw [List.length_take, (sortDesc_perm (ledgerVersions s)).length_eq]
  · exact (sortDesc_strict _ hnodup).sublist (List.take_sublist _ _)
  · intro hfind
    obtain ⟨he, hv, hl, _⟩ := rollbackLoop_ok exec migs (sortDesc (ledgerVersions s))
      steps.toNat s hfind
    rw [hrb]
    exact ⟨he, by rw [hv, downVersions_downEvents], hl⟩
  · intro good v tail htake hgood hnone
    have hdecomp : sortDesc (ledgerVersions s)
        = good ++ v :: (tail ++ (sortDesc (ledgerVersions s)).drop steps.toNat) := by
      conv_lhs => rw [← List.take_append_drop steps.toNat (sortDesc (ledgerVersions s))]
      rw [htake]
      simp
    have hlen : good.length < steps.toNat := by
      have h1 : ((sortDesc (ledgerVersions s)).take steps.toNat).length ≤ steps.toNat :=
        List.length_take_le _ _
      rw [htake] at h1
      simp at h1
      omega
    obtain ⟨he, hv, hl, _⟩ := rollbackLoop_notfound exec migs good v
      (tail ++ (sortDesc (ledgerVersions s)).drop steps.toNat) steps.toNat s
      hlen hgood hnone
    rw [hrb, hdecomp]
    exact ⟨he, by rw [hv, downVersions_downEvents], hl⟩

/-- Witness for C4: ledger `{1, 2}` with both definitions loaded and
`steps = 5`; the instantiated conclusion covers both the happy path and the
not-found branch. -/
theorem rollback_processes_min_steps_desc_witness :
    ((sortDesc (ledgerVersions dbTwoApplied)).take (5 : Int).toNat).length
        = min (5 : Int).toNat (ledgerVersions dbTwoApplied).length ∧
    ((sortDesc (ledgerVersions dbTwoApplied)).take (5 : Int).toNat).Pairwise
      (fun a b => b < a) ∧
    ((∀ v ∈ (sortDesc (ledgerVersions dbTwoApplied)).take (5 : Int).toNat,
        ∃ mig, findMigration [mig1, mig2] v = some mig ∧
          ∀ sch, (applyExec mig.downSQL sch).isSome = true) →
      (rollback applyExec [mig1, mig2] 5 dbTwoApplied).err = none ∧
      downVersions (rollback applyExec [mig1, mig2] 5 dbTwoApplied).events
        = (sortDesc (ledgerVersions dbTwoApplied)).take (5 : Int).toNat ∧
      (rollback applyExec [mig1, mig2] 5 dbTwoApplied).state.ledger
        = dbTwoApplied.ledger.filter (fun row =>
            !contains ((sortDesc (ledgerVersions dbTwoApplied)).take (5 : Int).toNat)
              row.1)) ∧
    (∀ good v tail,
      (sortDesc (ledgerVersions dbTwoApplied)).take (5 : Int).toNat
          = good ++ v :: tail →
      (∀ u ∈ good, ∃ mig, findMigration [mig1, mig2] u = some mig ∧
        ∀ sch, (applyExec mig.downSQL sch).isSome = true) →
      findMigration [mig1, mig2] v = none →
      (rollback applyExec [mig1, mig2] 5 dbTwoApplied).err
          = some ("migration with version " ++ toString v ++ " not found") ∧
      downVersions (rollback applyExec [mig1, mig2] 5 dbTwoApplied).events = good ∧
      (rollback applyExec [mig1, mig2] 5 dbTwoApplied).state.ledger
        = dbTwoApplied.ledger.filter (fun row => !contains good row.1)) :=
  rollback_processes_min_steps_desc applyExec [mig1, mig2] 5 dbTwoApplied
    (by decide) (by decide) (by decide)

/-- Counterexample for C6: the ledger already holds version 10 (with no loaded
definition), the single loaded definition has version 5, is unapplied, its
up-statement succeeds and its down-statement exactly inverts it; yet
`Migrate()` followed by `Rollback(1)` does not restore the previous state:
`Rollback` targets the numerically highest version 10, fails with
not-found, and leaves version 5 applied. -/
theorem roundtrip_fails_when_ledger_has_higher_version :
    migUD.version ∉ ledgerVersions dbInt10 ∧
    intExec migUD.upSQL dbInt10.schema = some 1 ∧
    intExec migUD.downSQL 1 = some dbInt10.schema ∧
    (migrate intExec [migUD] dbInt10).err = none ∧
    (rollback intExec [migUD] 1 (migrate intExec [migUD] dbInt10).state).state.ledger
      ≠ dbInt10.ledger ∧
    (rollback intExec [migUD] 1 (migrate intExec [migUD] dbInt10).state).state.schema
      ≠ dbInt10.schema := by
  decide

/-- Claim C6 (amended): for a single loaded unapplied migration definition whose
version is greater than every version already in the ledger and whose
down-statements exactly invert its up-statements, `Migrate()` followed by
`Rollback(1)` leaves both the schema and the ledger in the state they were
in before the `Migrate()` call. -/
theorem migrate_rollback_roundtrip (exec : String → σ → Option σ)
    (d : Migration) (s : DBState σ) (sch : σ)
    (hmax : ∀ v ∈ ledgerVersions s, v < d.version)
    (hup : exec d.upSQL s.schema = some sch)
    (hdown : exec d.downSQL sch = some s.schema) :
    (migrate exec [d] s).err = none ∧
    (rollback exec [d] 1 (migrate exec [d] s).state).err = none ∧
    (rollback exec [d] 1 (migrate exec [d] s).state).state.schema = s.schema ∧
    (rollback exec [d] 1 (migrate exec [d] s).state).state.ledger = s.ledger := by
  obtain ⟨te, led, sc⟩ := s
  simp only [ledgerVersions] at hmax
  have hnotmem : d.version ∉ List.map Prod.fst led :=
    fun hin => lt_irrefl _ (hmax _ hin)
  have hc2 : contains (List.map Prod.fst led) d.version = false :=
    (contains_eq_false_iff _ _).mpr hnotmem
  have hc1 : contains (sortDesc (List.map Prod.fst led)) d.version = false := by
    rw [contains_sortDesc]
    exact hc2
  have hmig : migrate exec [d] ⟨te, led, sc⟩
      = ⟨⟨true, led ++ [(d.version, d.name)], sch⟩,
          [Event.execUp d.version, Event.insertLedger d.version], none⟩ := by
    rw [migrate_def]
    simp only [ledgerVersions, createMigrationsTable]
    simp [migrateLoop, hc1, runMigration, hup, ledgerVersions, hc2]
  have hstate : (migrate exec [d] ⟨te, led, sc⟩).state
      = ⟨true, led ++ [(d.version, d.name)], sch⟩ := by rw [hmig]
  have hsort : sortDesc (List.map Prod.fst (led ++ [(d.version, d.name)]))
      = d.version :: sortDesc (List.map Prod.fst led) := by
    rw [List.map_append]
    exact sortDesc_append_gt _ _ hmax
  have hfilter : (led ++ [(d.version, d.name)]).filter
      (fun row => row.1 != d.version) = led := by
    rw [List.filter_append]
    have h1 : led.filter (fun row => row.1 != d.version) = led := by
      apply List.filter_eq_self.mpr
      intro row hrow
      have hvm : row.1 ∈ List.map Prod.fst led := List.mem_map_of_mem _ hrow
      have hlt := hmax _ hvm
      simp [bne]
      exact ne_of_lt hlt
    rw [h1]
    simp
  have hroll1 : rollback exec [d] 1 ⟨true, led ++ [(d.version, d.name)], sch⟩
      = ⟨⟨true, led, sc⟩, [Event.execDown d.version, Event.deleteLedger d.version],
          none⟩ := by
    have h1 : ¬ (1 : Int) ≤ 0 := by decide
    simp only [rollback, h1, if_neg, getAppliedMigrations, ledgerVersions]
    simp only [hsort]
    simp [rollbackLoop, findMigration, rollbackMigration, hdown, hfilter]
  rw [hstate, hroll1, hmig]
  exact ⟨rfl, rfl, rfl, rfl⟩

/-- Witness for C6 (amended): ledger `{3}`, definition version 5 with `"U"`
up and `"D"` down over the integer-counter schema; the round trip restores
schema `0` and ledger `{3}`. -/
theorem migrate_rollback_roundtrip_witness :
    (migrate intExec [migUD] dbInt3).err = none ∧
    (rollback intExec [migUD] 1 (migrate intExec [migUD] dbInt3).state).err = none ∧
    (rollback intExec [migUD] 1 (migrate intExec [migUD] dbInt3).state).state.schema
      = dbInt3.schema ∧
    (rollback intExec [migUD] 1 (migrate intExec [migUD] dbInt3).state).state.ledger
      = dbInt3.ledger :=
  migrate_rollback_roundtrip intExec migUD dbInt3 1
    (by decide) (by decide) (by decide)

/-- Claim C10: `Rollback(steps)` never creates the ledger table — only `Migrate()`
issues the `CREATE TABLE IF NOT EXISTS` — so for `steps > 0` on a database
where the ledger table has never been created, `Rollback` returns the query
error from reading applied versions, performs no statement executions, and
changes nothing. -/
theorem rollback_never_creates_table (exec : String → σ → Option σ)
    (migs : List Migration) (steps : Int) (s : DBState σ)
    (hpos : 0 < steps) (htab : s.tableExists = false) :
    rollback exec migs steps s
      = ⟨s, [], some "failed to get applied migrations: error querying migrations"⟩ ∧
    (migrate exec migs s).state.tableExists = true := by
  refine ⟨?_, migrate_tableExists exec migs s⟩
  simp [rollback, not_le.mpr hpos, getAppliedMigrations, htab]

/-- Witness for C10: a fresh database without the ledger table; `Rollback 1`
fails with the wrapped query error and leaves the state untouched. -/
theorem rollback_never_creates_table_witness :
    rollback applyExec [mig1] 1 dbEmpty
      = ⟨dbEmpty, [],
          some "failed to get applied migrations: error querying migrations"⟩ ∧
    (migrate applyExec [mig1] dbEmpty).state.tableExists = true :=
  rollback_never_creates_table applyExec [mig1] 1 dbEmpty (by decide) (by decide)

/-- Claim C2 (code bug): `executeSeed`'s failure branch returns the result of
`tx.Rollback()` — the shadowed `err` — instead of the `Exec` error, so when
the rollback succeeds the Go function returns `nil`.  Consequently `Seed()`
does not abort: on this input the first seed's statement fails (its
transaction is rolled back — `"FAIL"` never reaches the schema), yet
`Seed()` returns `nil` and still executes the second seed. -/
theorem seed_continues_after_failed_statement :
    (runSeeds scriptExec [seedFailing, seedOk] dbEmpty).err = none ∧
    (runSeeds scriptExec [seedFailing, seedOk] dbEmpty).events
      = [Event.execStmt "01_users.sql" "FAIL",
          Event.execStmt "02_posts.sql" "INSERT 2"] ∧
    (runSeeds scriptExec [seedFailing, seedOk] dbEmpty).state.schema
      = ["INSERT 2"] := by
  decide

/-- Counterexample for C8: the seed body `"A;B"` is passed to a single `Exec`
of the whole body; the spec-described splitter would instead execute `"A"`
and `"B"` separately.  The code's trace differs from the spec's. -/
theorem executeSeed_does_not_split_statements :
    (executeSeed applyExec seedSemi dbEmpty).events
      = [Event.execStmt "01_users.sql" "A;B"] ∧
    (executeSeedSplitSpec applyExec seedSemi dbEmpty).events
      = [Event.execStmt "01_users.sql" "A", Event.execStmt "01_users.sql" "B"] ∧
    (executeSeed applyExec seedSemi dbEmpty).events
      ≠ (executeSeedSplitSpec applyExec seedSemi dbEmpty).events ∧
    (executeSeed applyExec seedSemi dbEmpty).state.schema = ["A;B"] := by
  decide

/-- Claim C8 (amended): for every loaded seed list, `Seed()` performs — inside
each seed's transaction, in list order — exactly one `Exec` of that seed's
entire body (no semicolon splitting and no blank-statement skipping by the
engine) and then commits; because of the error-shadowing bug it always
returns `nil`. -/
theorem seed_single_exec_per_seed (exec : String → σ → Option σ)
    (seeds : List Seed) (s : DBState σ) :
    (runSeeds exec seeds s).events
      = seeds.map (fun sd => Event.execStmt sd.name sd.sql) ∧
    (runSeeds exec seeds s).err = none := by
  induction seeds generalizing s with
  | nil => simp [runSeeds]
  | cons sd rest ih =>
    cases hx : exec sd.sql s.schema with
    | none =>
      have hexec : executeSeed exec sd s
          = ⟨s, [Event.execStmt sd.name sd.sql], none⟩ := by
        simp [executeSeed, hx]
      obtain ⟨ihv, ihe⟩ := ih s
      simp [runSeeds, hexec, ihv, ihe]
    | some sch =>
      have hexec : executeSeed exec sd s
          = ⟨⟨s.tableExists, s.ledger, sch⟩, [Event.execStmt sd.name sd.sql], none⟩ := by
        simp [executeSeed, hx]
      obtain ⟨ihv, ihe⟩ := ih ⟨s.tableExists, s.ledger, sch⟩
      simp [runSeeds, hexec, ihv, ihe]

/-- Counterexample for C7: two `.sql` files fail to read; `LoadSeeds` returns
the first file's read error unchanged, reads nothing after the failing
file, and its result differs from the aggregate error the spec describes. -/
theorem loadSeeds_not_aggregating :
    loadSeeds entriesTwoBad = (.error "read error a", ["a.sql"]) ∧
    loadSeedsAggregateSpec entriesTwoBad
      = .error "failed to read seed files: a.sql, b.sql" ∧
    (loadSeeds entriesTwoBad).1 ≠ loadSeedsAggregateSpec entriesTwoBad := by
  decide

theorem loadSeedsAux_fail_fast (bad : String) (e : String)
    (post : List (String × Except String String)) :
    ∀ pre : List (String × Except String String),
    (∀ p ∈ pre, fileExt p.1 = ".sql" → ∃ c, p.2 = .ok c) →
    fileExt bad = ".sql" →
    loadSeedsAux (pre ++ (bad, .error e) :: post)
      = (.error e, (pre.filter (fun p => fileExt p.1 == ".sql")).map Prod.fst
          ++ [bad]) := by
  intro pre
  induction pre with
  | nil =>
    intro _ hbad
    simp [loadSeedsAux, hbad]
  | cons p ps ih =>
    intro hpre hbad
    obtain ⟨n, pc⟩ := p
    by_cases hp : fileExt n = ".sql"
    · obtain ⟨c, hc⟩ := hpre (n, pc) (by simp) hp
      simp only at hc
      subst hc
      have ihr := ih (fun q hq => hpre q (by simp [hq])) hbad
      have hbe : (fileExt n == ".sql") = true := by
        simp [hp]
      simp [loadSeedsAux, hp, ihr, List.filter_cons, hbe]
    · have ihr := ih (fun q hq => hpre q (by simp [hq])) hbad
      have hbe : (fileExt n == ".sql") = false := by
        simp [hp]
      simp [loadSeedsAux, hp, ihr, List.filter_cons, hbe]

/-- Claim C7 (amended): `LoadSeeds` fails fast — like the migration loader — on
the first `.sql` file that fails to read: it returns that file's read error
unchanged, after having read only the earlier `.sql` entries (non-`.sql`
entries are never read), and attempts no read past the failing file. -/
theorem loadSeeds_fail_fast (pre : List (String × Except String String))
    (bad : String) (e : String) (post : List (String × Except String String))
    (hpre : ∀ p ∈ pre, fileExt p.1 = ".sql" → ∃ c, p.2 = .ok c)
    (hbad : fileExt bad = ".sql") :
    loadSeeds (pre ++ (bad, .error e) :: post)
      = (.error e, (pre.filter (fun p => fileExt p.1 == ".sql")).map Prod.fst
          ++ [bad]) := by
  have h := loadSeedsAux_fail_fast bad e post pre hpre hbad
  simp [loadSeeds, h]

/-- Witness for C7 (amended): `entriesMixed` — a good `.sql` file, a
non-`.sql` entry (never read), the failing `a.sql`, and a later `b.sql`
whose read is never attempted. -/
theorem loadSeeds_fail_fast_witness :
    loadSeeds entriesMixed = (.error "boom", ["0.sql", "a.sql"]) := by
  have h := loadSeeds_fail_fast
    [("0.sql", .ok "S0"), ("skip.txt", .error "never read")]
    "a.sql" "boom" [("b.sql", .error "later")]
    (by
      intro p hp hsql
      rcases List.mem_cons.mp hp with rfl | hp2
      · exact ⟨"S0", rfl⟩
      · rcases List.mem_cons.mp hp2 with rfl | hp3
        · exact absurd hsql (by decide)
        · cases hp3)
    (by decide)
  have he : entriesMixed
      = [("0.sql", Except.ok "S0"), ("skip.txt", Except.error "never read")]
        ++ ("a.sql", Except.error "boom") :: [("b.sql", Except.error "later")] := rfl
  rw [he, h]
  decide

theorem stripPrefixChars_length (sep : List Char) :
    ∀ (s r : List Char), stripPrefixChars sep s = some r →
    s.length = sep.length + r.length := by
  induction sep with
  | nil =>
    intro s r h
    simp [stripPrefixChars] at h
    subst h
    simp
  | cons c cs ih =>
    intro s r h
    cases s with
    | nil => simp [stripPrefixChars] at h
    | cons d ds =>
      by_cases hcd : c = d
      · simp only [stripPrefixChars, if_pos hcd] at h
        have := ih ds r h
        simp [this]
        omega
      · simp [stripPrefixChars, hcd] at h

theorem stripPrefixChars_append (sep : List Char) :
    ∀ (s r : List Char), stripPrefixChars sep s = some r → s = sep ++ r := by
  induction sep with
  | nil =>
    intro s r h
    simp [stripPrefixChars] at h
    subst h
    simp
  | cons c cs ih =>
    intro s r h
    cases s with
    | nil => simp [stripPrefixChars] at h
    | cons d ds =>
      by_cases hcd : c = d
      · simp only [stripPrefixChars, if_pos hcd] at h
        have := ih ds r h
        simp [hcd, this]
      · simp [stripPrefixChars, hcd] at h

theorem goSplitAux_length (sep : List Char) (hsep : sep ≠ []) :
    ∀ (fuel : Nat) (s : List Char), s.length ≤ fuel →
    (goSplitAux sep fuel s).length = countOccAux sep fuel s + 1 := by
  intro fuel
  induction fuel with
  | zero =>
    intro s hs
    have : s = [] := List.length_eq_zero.mp (Nat.le_zero.mp hs)
    subst this
    simp [goSplitAux, countOccAux]
  | succ f ih =>
    intro s hs
    cases s with
    | nil => simp [goSplitAux, countOccAux]
    | cons c rest =>
      cases hstrip : stripPrefixChars sep (c :: rest) with
      | some rem =>
        have hlen := stripPrefixChars_length sep (c :: rest) rem hstrip
        have hsl : 1 ≤ sep.length := by
          cases sep
          · exact absurd rfl hsep
          · simp
        have hrem : rem.length ≤ f := by
          simp at hlen hs
          omega
        simp only [goSplitAux, countOccAux, hstrip]
        simp [ih rem hrem]
      | none =>
        have hrest : rest.length ≤ f := by
          simp at hs
          omega
        have ihr := ih rest hrest
        simp only [goSplitAux, countOccAux, hstrip]
        cases hgs : goSplitAux sep f rest with
        | nil => rw [hgs] at ihr; simp at ihr
        | cons p ps =>
          rw [hgs] at ihr
          simpa using ihr

theorem joinSep_cons_head (sep : List Char) (c : Char) (p : List Char)
    (ps : List (List Char)) :
    joinSep sep ((c :: p) :: ps) = c :: joinSep sep (p :: ps) := by
  cases ps <;> simp [joinSep]

theorem joinSep_goSplitAux (sep : List Char) (hsep : sep ≠ []) :
    ∀ (fuel : Nat) (s : List Char), s.length ≤ fuel →
    joinSep sep (goSplitAux sep fuel s) = s := by
  intro fuel
  induction fuel with
  | zero =>
    intro s hs
    have : s = [] := List.length_eq_zero.mp (Nat.le_zero.mp hs)
    subst this
    simp [goSplitAux, joinSep]
  | succ f ih =>
    intro s hs
    cases s with
    | nil => simp [goSplitAux, joinSep]
    | cons c rest =>
      cases hstrip : stripPrefixChars sep (c :: rest) with
      | some rem =>
        have hlen := stripPrefixChars_length sep (c :: rest) rem hstrip
        have hsl : 1 ≤ sep.length := by
          cases sep
          · exact absurd rfl hsep
          · simp
        have hrem : rem.length ≤ f := by
          simp at hlen hs
          omega
        have hjoin := ih rem hrem
        have happ := stripPrefixChars_append sep (c :: rest) rem hstrip
        cases hgs : goSplitAux sep f rem with
        | nil =>
          have := goSplitAux_length sep hsep f rem hrem
          rw [hgs] at this
          simp at this
        | cons p ps =>
          rw [hgs] at hjoin
          simp only [goSplitAux, hstrip, hgs]
          rw [show joinSep sep ([] :: p :: ps) = sep ++ joinSep sep (p :: ps) by
            simp [joinSep]]
          rw [hjoin]
          exact happ.symm
      | none =>
        have hrest : rest.length ≤ f := by
          simp at hs
          omega
        have hjoin := ih rest hrest
        cases hgs : goSplitAux sep f rest with
        | nil =>
          have := goSplitAux_length sep hsep f rest hrest
          rw [hgs] at this
          simp at this
        | cons p ps =>
          rw [hgs] at hjoin
          simp only [goSplitAux, hstrip, hgs]
          rw [joinSep_cons_head, hjoin]

theorem goSplit_length (sep s : List Char) (hsep : sep ≠ []) :
    (goSplit sep s).length = countOcc sep s + 1 :=
  goSplitAux_length sep hsep s.length s (le_refl _)

theorem joinSep_goSplit (sep s : List Char) (hsep : sep ≠ []) :
    joinSep sep (goSplit sep s) = s :=
  joinSep_goSplitAux sep hsep s.length s (le_refl _)

theorem parseMigrationContent_error (content : String)
    (h : countOcc downToken content.toList ≠ 1) :
    parseMigrationContent content = .error "invalid migration file format" := by
  have hlen : (goSplit downToken content.toList).length ≠ 2 := by
    rw [goSplit_length _ _ (by decide)]
    omega
  unfold parseMigrationContent
  cases hgs : goSplit downToken content.toList with
  | nil => rfl
  | cons a t =>
    cases t with
    | nil => rfl
    | cons b t2 =>
      cases t2 with
      | nil =>
        rw [hgs] at hlen
        simp at hlen
      | cons c t3 => rfl

theorem loadMigrationsAux_error :
    ∀ (files : List MigFile) (f : MigFile), f ∈ files →
    fileExt f.name = ".sql" →
    (∀ m, parseMigrationFile f ≠ .ok m) →
    ∃ e, loadMigrationsAux files = .error e := by
  intro files
  induction files with
  | nil =>
    intro f hmem
    cases hmem
  | cons g gs ih =>
    intro f hmem hsql hbad
    rcases List.mem_cons.mp hmem with rfl | hmem2
    · cases hp : parseMigrationFile f with
      | error e =>
        exact ⟨"failed to parse migration file " ++ f.name ++ ": " ++ e,
          by simp [loadMigrationsAux, hsql, hp]⟩
      | ok m => exact absurd hp (hbad m)
    · by_cases hg : fileExt g.name = ".sql"
      · cases hp : parseMigrationFile g with
        | error e =>
          exact ⟨"failed to parse migration file " ++ g.name ++ ": " ++ e,
            by simp [loadMigrationsAux, hg, hp]⟩
        | ok m =>
          obtain ⟨e, he⟩ := ih f hmem2 hsql hbad
          exact ⟨e, by simp [loadMigrationsAux, hg, hp, he]⟩
      · obtain ⟨e, he⟩ := ih f hmem2 hsql hbad
        exact ⟨e, by simp [loadMigrationsAux, hg, he]⟩

/-- Claim C9: parsing a migration file's content succeeds if and only if the
content contains exactly one occurrence of the token `"-- Down"`; on
success the up-part is everything before the delimiter trimmed of
surrounding whitespace and the down-part is everything after it trimmed;
and a `.sql` file whose content has zero or more than one occurrences makes
the whole `LoadMigrations()` call return an error. -/
theorem parseMigration_delimiter_iff (content : String) :
    ((∃ ud, parseMigrationContent content = .ok ud) ↔
      countOcc downToken content.toList = 1) ∧
    (∀ pre post, goSplit downToken content.toList = [pre, post] →
      content.toList = pre ++ downToken ++ post ∧
      parseMigrationContent content
        = .ok (String.mk (trimSpace pre), String.mk (trimSpace post))) ∧
    (∀ files f, f ∈ files → fileExt f.name = ".sql" →
      countOcc downToken f.content.toList ≠ 1 →
      ∃ e, loadMigrations files = .error e) := by
  have hsep : downToken ≠ [] := by decide
  refine ⟨⟨?_, ?_⟩, ?_, ?_⟩
  · rintro ⟨ud, h⟩
    by_contra hne
    rw [parseMigrationContent_error content hne] at h
    cases h
  · intro hone
    have hlen : (goSplit downToken content.toList).length = 2 := by
      rw [goSplit_length _ _ hsep, hone]
    obtain ⟨a, b, hab⟩ := List.length_eq_two.mp hlen
    have hab2 : goSplit downToken content.data = [a, b] := hab
    exact ⟨(String.mk (trimSpace a), String.mk (trimSpace b)),
      by simp [parseMigrationContent, hab, hab2]⟩
  · intro pre post hgs
    constructor
    · have := joinSep_goSplit downToken content.toList hsep
      rw [hgs] at this
      rw [← this]
      simp [joinSep]
    · have hgs2 : goSplit downToken content.data = [pre, post] := hgs
      simp [parseMigrationContent, hgs, hgs2]
  · intro files f hmem hsql hbad
    have hparse : ∀ m, parseMigrationFile f ≠ .ok m := by
      intro m hp
      unfold parseMigrationFile at hp
      rw [parseMigrationContent_error f.content hbad] at hp
      cases hp
    obtain ⟨e, he⟩ := loadMigrationsAux_error files f hmem hsql hparse
    exact ⟨e, by simp [loadMigrations, he]⟩

/-- Witness for C9: a content with exactly one `-- Down` delimiter parses,
and its two parts are the trimmed texts before and after the delimiter. -/
theorem parseMigration_delimiter_iff_witness :
    (∃ ud, parseMigrationContent "CREATE TABLE t;\n-- Down\nDROP TABLE t;"
      = .ok ud) ∧
    (∃ e, loadMigrations [⟨"001_bad.sql", "no delimiter here"⟩] = .error e) := by
  constructor
  · exact (parseMigration_delimiter_iff
      "CREATE TABLE t;\n-- Down\nDROP TABLE t;").1.mpr (by decide)
  · exact (parseMigration_delimiter_iff "no delimiter here").2.2
      [⟨"001_bad.sql", "no delimiter here"⟩] ⟨"001_bad.sql", "no delimiter here"⟩
      (by simp) (by decide) (by decide)

end GravLsm
